import Mathlib

/-!
Verification of the web3-listener core against its specification.

The development shallowly embeds the TypeScript source:

* `src/utils/address.ts` — address normalization and watch-list lookup.
  Addresses are ASCII strings; we model a string as its list of code
  points (`List Nat`), and JavaScript `toLowerCase` on such strings as
  the code-point map that shifts `A`–`Z` (65–90) by +32.
* `src/utils/event.ts` — `shouldProcessTransaction` and
  `buildTransferEvent` (a thrown exception is modelled as `none`).
  The `valueETH` formatting string and the wall-clock `timestamp`
  field of a `TransferEvent` are presentation-only and are not part of
  any claim, so they are omitted from the record.
* `src/watcher/blocks.ts` — the confirmed-block and pending-mempool
  transaction paths sharing one dedup set; the dedup set is modelled
  as a list of hashes, a transaction hash as an opaque `Nat`.
* `src/watcher/blockContinuity.ts` — the block-continuity manager.
  The external RPC fetch (`getBlock` plus the downstream `onBlock`
  callback) is modelled by an oracle `fetch : Nat → Bool` saying
  whether fetching-and-processing a given block number succeeds.
* `src/rpcPool.ts` — endpoint health bookkeeping and ring selection.
  Endpoint URLs are opaque atoms (`Nat`); wall-clock times are `Nat`
  milliseconds.
-/

/-! ### Addresses (src/utils/address.ts) -/

/-- An address string, as its list of ASCII code points. -/
abbrev Addr := List Nat

/-- JavaScript `toLowerCase` on one ASCII code point: `A`–`Z` shift by 32. -/
def toLowerCode (c : Nat) : Nat :=
  if 65 ≤ c ∧ c ≤ 90 then c + 32 else c

/-- `normalizeAddress`: `address.toLowerCase()`. -/
def normalizeAddress (address : Addr) : Addr :=
  address.map toLowerCode

/-- `isAddressWatched`: `watchedSet.has(normalizeAddress(address))`. -/
def isAddressWatched (address : Addr) (watchedSet : List Addr) : Bool :=
  decide (normalizeAddress address ∈ watchedSet)

/-- `getAddressLabel`: `labelMap.get(normalizeAddress(address))`. -/
def getAddressLabel (address : Addr) (labelMap : List (Addr × String)) : Option String :=
  labelMap.lookup (normalizeAddress address)

/-- `watchedSide` values of a transfer event. -/
inductive WatchedSide where
  | fromSide
  | toSide
  | both
deriving DecidableEq, BEq

/-- `getWatchedSide(from, to, watchedSet)`: which side of the transaction is
watched; `none` models the `null` return. -/
def getWatchedSide (txFrom : Addr) (txTo : Option Addr) (watchedSet : List Addr) :
    Option WatchedSide :=
  let isFromWatched := isAddressWatched txFrom watchedSet
  let isToWatched := match txTo with
    | some t => isAddressWatched t watchedSet
    | none => false
  if isFromWatched && isToWatched then some WatchedSide.both
  else if isFromWatched then some WatchedSide.fromSide
  else if isToWatched then some WatchedSide.toSide
  else none

/-! ### Transactions, config and events (src/types.ts, src/utils/event.ts) -/

/-- `RawTransaction` of src/utils/event.ts: hash, from, to, value, and the
optional blockNumber. Hashes are opaque atoms, values are wei amounts. -/
structure Tx where
  hash : Nat
  txFrom : Addr
  txTo : Option Addr
  value : Nat
  blockNumber : Option Nat
deriving DecidableEq

/-- The fields of `AppConfig` the core consumes. -/
structure AppConfig where
  thresholdWei : Nat
  watchedAddressesSet : List Addr
  addressLabelMap : List (Addr × String)

/-- Event type tag: `'pending' | 'confirmed'`. -/
inductive EventType where
  | pending
  | confirmed
deriving DecidableEq, BEq

/-- `TransferEvent` as emitted to the sink (`valueETH` and `timestamp` are
presentation fields, omitted). -/
structure TransferEvent where
  type : EventType
  txHash : Nat
  blockNumber : Option Nat
  txFrom : Addr
  fromLabel : Option String
  txTo : Option Addr
  toLabel : Option String
  valueWei : Nat
  watchedSide : WatchedSide
  seenInMempool : Bool
deriving DecidableEq

/-- `buildTransferEvent(tx, config, type, seenInMempool)`; the
`throw new Error(..)` branch is modelled by `none`. -/
def buildTransferEvent (tx : Tx) (config : AppConfig) (type : EventType)
    (seenInMempool : Bool) : Option TransferEvent :=
  let fromAddress := normalizeAddress tx.txFrom
  let toAddress := tx.txTo.map normalizeAddress
  match getWatchedSide tx.txFrom tx.txTo config.watchedAddressesSet with
  | none => none
  | some watchedSide =>
    some { type := type
           txHash := tx.hash
           blockNumber := tx.blockNumber
           txFrom := fromAddress
           fromLabel := getAddressLabel fromAddress config.addressLabelMap
           txTo := toAddress
           toLabel := toAddress.bind (fun t => getAddressLabel t config.addressLabelMap)
           valueWei := tx.value
           watchedSide := watchedSide
           seenInMempool := seenInMempool }

/-- `shouldProcessTransaction(tx, config, seenTxHashes)`. -/
def shouldProcessTransaction (tx : Tx) (config : AppConfig) (seenTxHashes : List Nat) :
    Bool :=
  if tx.hash ∈ seenTxHashes then false
  else match tx.txTo with
    | none => false
    | some _ =>
      if tx.value < config.thresholdWei then false
      else (getWatchedSide tx.txFrom tx.txTo config.watchedAddressesSet).isSome

/-! ### Transfer pipeline (src/watcher/blocks.ts)

The two transaction paths share one dedup set (`seenTxHashes`). Each path
is a pure step from the dedup set to the updated set plus the list of
events handed to the sink callback (`onTransfer`). -/

/-- `processBlockTransaction(tx, blockNumber, config, seenTxHashes, onTransfer)`:
the confirmed path for one transaction of a fetched block. -/
def processBlockTransaction (tx : Tx) (blockNumber : Nat) (config : AppConfig)
    (seenTxHashes : List Nat) : List Nat × List TransferEvent :=
  let txWithBlock := { tx with blockNumber := some blockNumber }
  let wasSeenInMempool := decide (tx.hash ∈ seenTxHashes)
  if !wasSeenInMempool && !shouldProcessTransaction txWithBlock config seenTxHashes then
    (seenTxHashes, [])
  else if wasSeenInMempool then
    (seenTxHashes, [])
  else
    let seenTxHashes2 := tx.hash :: seenTxHashes
    match buildTransferEvent txWithBlock config EventType.confirmed false with
    | some event => (seenTxHashes2, [event])
    | none => (seenTxHashes2, [])

/-- `processPendingTransaction(client, config, txHash, seenTxHashes, onTransfer)`:
the pending path for one mempool hash. The `client.getTransaction` result is
an input: `none` models a null result or a thrown fetch error (both end the
call with no effect). A `buildTransferEvent` throw is caught by the outer
try, after the hash was already added to the dedup set. -/
def processPendingTransaction (txOpt : Option Tx) (config : AppConfig) (txHash : Nat)
    (seenTxHashes : List Nat) : List Nat × List TransferEvent :=
  match txOpt with
  | none => (seenTxHashes, [])
  | some tx =>
    if !shouldProcessTransaction tx config seenTxHashes then
      (seenTxHashes, [])
    else
      let seenTxHashes2 := txHash :: seenTxHashes
      match buildTransferEvent tx config EventType.pending true with
      | some event => (seenTxHashes2, [event])
      | none => (seenTxHashes2, [])

/-- One sequential pipeline operation: a pending-path call (with the fetched
transaction, if any, and the subscription hash) or a confirmed-path call. -/
inductive PipeOp where
  | pendingTx (txOpt : Option Tx) (txHash : Nat)
  | confirmedTx (tx : Tx) (blockNumber : Nat)
deriving DecidableEq

/-- Dispatch one pipeline operation. -/
def stepOp (config : AppConfig) (seenTxHashes : List Nat) : PipeOp → List Nat × List TransferEvent
  | PipeOp.pendingTx txOpt txHash => processPendingTransaction txOpt config txHash seenTxHashes
  | PipeOp.confirmedTx tx blockNumber => processBlockTransaction tx blockNumber config seenTxHashes

/-- Run a sequential interleaving of pipeline operations, concatenating the
events handed to the sink. -/
def runPipe (config : AppConfig) : List PipeOp → List Nat → List Nat × List TransferEvent
  | [], seenTxHashes => (seenTxHashes, [])
  | op :: ops, seenTxHashes =>
    let r := stepOp config seenTxHashes op
    let r2 := runPipe config ops r.1
    (r2.1, r.2 ++ r2.2)

/-- Environment well-formedness of one operation: a transaction fetched by
`getTransaction(h)` carries hash `h`. -/
def wfOp : PipeOp → Bool
  | PipeOp.pendingTx (some tx) txHash => decide (tx.hash = txHash)
  | PipeOp.pendingTx none _ => true
  | PipeOp.confirmedTx _ _ => true

/-! ### Block continuity (src/watcher/blockContinuity.ts)

State is `lastProcessedBlockNumber : Option Nat` (after `initialize()` at
head `n0` it is `some n0`). The RPC fetch plus the downstream `onBlock`
callback are one oracle `fetch : Nat → Bool`; a successful
`fetchAndProcessBlock n` passes block `n` to `onBlock`, a failed one throws.
The observable trace records `onBlock` deliveries and `onError` reports. -/

/-- Observable continuity-engine effects: a block handed to `onBlock`, or a
backfill failure reported through `onError`. -/
inductive Emit where
  | block (n : Nat)
  | error (n : Nat)
deriving DecidableEq

/-- One backfill iteration outcome for block `b`. -/
def emitOf (fetch : Nat → Bool) (b : Nat) : Emit :=
  if fetch b then Emit.block b else Emit.error b

/-- Body of the `backfillBlocks` loop over the listed block numbers, threading
`lastProcessedBlockNumber`: on success the block is emitted and the counter
advances to it; on failure the error is reported and the counter is kept. -/
def backfillGo (fetch : Nat → Bool) : List Nat → Nat → List Emit × Nat
  | [], lastProcessed => ([], lastProcessed)
  | b :: bs, lastProcessed =>
    if fetch b then
      let r := backfillGo fetch bs b
      (Emit.block b :: r.1, r.2)
    else
      let r := backfillGo fetch bs lastProcessed
      (Emit.error b :: r.1, r.2)

/-- `backfillBlocks(startBlock, endBlock)` starting from counter value
`lastProcessed`: iterate `blockNum` from `startBlock` to `endBlock` inclusive. -/
def backfillBlocks (fetch : Nat → Bool) (startBlock endBlock lastProcessed : Nat) :
    List Emit × Nat :=
  backfillGo fetch (List.range' startBlock (endBlock + 1 - startBlock)) lastProcessed

/-- `processNewBlock(n)` on an initialized manager. Returns the emitted trace,
the new `lastProcessedBlockNumber`, and whether the call threw (an in-order or
head fetch failure rethrows out of the manager; backfill failures do not). -/
def processNewBlock (fetch : Nat → Bool) (lastProcessed : Option Nat) (n : Nat) :
    List Emit × Option Nat × Bool :=
  match lastProcessed with
  | none =>
    if fetch n then ([Emit.block n], some n, false) else ([], none, true)
  | some lp =>
    let expected := lp + 1
    if n = expected then
      if fetch n then ([Emit.block n], some n, false) else ([], some lp, true)
    else if n > expected then
      let bf := backfillBlocks fetch expected (n - 1) lp
      if fetch n then (bf.1 ++ [Emit.block n], some n, false)
      else (bf.1, some bf.2, true)
    else
      ([], some lp, false)

/-- Feed a sequence of head notifications through `processNewBlock`. -/
def runHeads (fetch : Nat → Bool) : Option Nat → List Nat → List Emit × Option Nat
  | lastProcessed, [] => ([], lastProcessed)
  | lastProcessed, n :: ns =>
    let r := processNewBlock fetch lastProcessed n
    let r2 := runHeads fetch r.2.1 ns
    (r.1 ++ r2.1, r2.2)

/-- `handleReconnection(newClient)`: `latest` is the new client's
`getBlockNumber()` answer (also the answer `initialize()` would read when the
manager was never initialized). -/
def handleReconnection (fetch : Nat → Bool) (latest : Nat) (lastProcessed : Option Nat) :
    List Emit × Option Nat :=
  match lastProcessed with
  | none => ([], some latest)
  | some lp =>
    if latest > lp then
      let bf := backfillBlocks fetch (lp + 1) latest lp
      (bf.1, some latest)
    else if latest = lp then
      ([], some lp)
    else
      ([], some latest)

/-! ### Endpoint pool health and selection (src/rpcPool.ts) -/

/-- `EndpointStatus`: healthy, degraded, down. -/
inductive EndpointStatus where
  | healthy
  | degraded
  | down
deriving DecidableEq, BEq

/-- `EndpointHealth` record for one endpoint (the `url` key is implicit in how
the record is addressed). -/
structure EndpointHealth where
  status : EndpointStatus
  failCount : Nat
  lastErrorTime : Nat
  lastSuccessTime : Nat
  nextAvailableTime : Nat
deriving DecidableEq

/-- The pool tuning knobs used by failure bookkeeping. -/
structure RpcPoolConfig where
  baseDelay : Nat
  maxCooldown : Nat

/-- `handleConnectionError(endpoint, error)` (also wired to the socket
`error` event of the active client): the health-record update, at wall-clock
time `now`. -/
def handleConnectionError (config : RpcPoolConfig) (now : Nat) (health : EndpointHealth) :
    EndpointHealth :=
  let failCount := health.failCount + 1
  let cooldown := min (2 ^ failCount * config.baseDelay) config.maxCooldown
  if failCount ≥ 3 then
    { health with
      failCount := failCount
      lastErrorTime := now
      nextAvailableTime := now + cooldown
      status := EndpointStatus.down }
  else
    { health with
      failCount := failCount
      lastErrorTime := now
      nextAvailableTime := now + cooldown
      status := EndpointStatus.degraded }

/-- `handleDisconnection(endpoint)` (wired to the socket `close` event of the
active client): only the health-record mutation it performs. -/
def handleDisconnection (now : Nat) (health : EndpointHealth) : EndpointHealth :=
  { health with
    failCount := health.failCount + 1
    lastErrorTime := now
    status := EndpointStatus.degraded }

/-- The availability test of the selection loop:
`health.nextAvailableTime <= now && health.status !== DOWN`. -/
def epAvailable (healthMap : Nat → EndpointHealth) (now : Nat) (endpoint : Nat) : Bool :=
  decide ((healthMap endpoint).nextAvailableTime ≤ now) &&
    !((healthMap endpoint).status == EndpointStatus.down)

/-- The `while (attempts < this.endpoints.length)` loop of
`getCurrentHealthyEndpoint`, with `fuel` remaining attempts: returns the found
endpoint (if any) and the final `currentIndex`. -/
def walkRing (endpoints : List Nat) (healthMap : Nat → EndpointHealth) (now : Nat) :
    Nat → Nat → Option Nat × Nat
  | currentIndex, 0 => (none, currentIndex)
  | currentIndex, fuel + 1 =>
    if epAvailable healthMap now (endpoints.getD currentIndex 0) then
      (some (endpoints.getD currentIndex 0), currentIndex)
    else walkRing endpoints healthMap now ((currentIndex + 1) % endpoints.length) fuel

/-- The fallback scan of `getCurrentHealthyEndpoint`: fold over all endpoints
keeping the one with strictly smaller `nextAvailableTime`. -/
def fallbackBest (endpoints : List Nat) (healthMap : Nat → EndpointHealth)
    (bestEndpoint : Nat) : Nat :=
  endpoints.foldl
    (fun best endpoint =>
      if (healthMap endpoint).nextAvailableTime < (healthMap best).nextAvailableTime then
        endpoint
      else best)
    bestEndpoint

/-- `getCurrentHealthyEndpoint()`: walk the ring from `currentIndex` for at
most `endpoints.length` attempts; if none qualifies, scan all endpoints for
the smallest `nextAvailableTime`, starting from `endpoints[currentIndex]`. -/
def getCurrentHealthyEndpoint (endpoints : List Nat) (healthMap : Nat → EndpointHealth)
    (now : Nat) (currentIndex : Nat) : Nat :=
  match (walkRing endpoints healthMap now currentIndex endpoints.length).1 with
  | some endpoint => endpoint
  | none =>
    fallbackBest endpoints healthMap
      (endpoints.getD (walkRing endpoints healthMap now currentIndex endpoints.length).2 0)

/-- The walk order of the ring: endpoints at offsets `0, …, length−1` from
`start`, as the specification describes the selection walk. -/
def ringFrom (endpoints : List Nat) (start : Nat) : List Nat :=
  (List.range endpoints.length).map
    (fun k => endpoints.getD ((start + k) % endpoints.length) 0)

/-! ### Spec-side relations and concrete instances

`caseVariantB` renders the specification's "changing the upper/lower case of
any subset of its hex digits"; the remaining definitions are concrete inputs
used by witnesses and counterexamples. -/

/-- Toggle the case of one hex letter code point (`a`–`f` ↔ `A`–`F`); any
other code point (including the caseless digits `0`–`9`) is unchanged. -/
def flipHexCase (c : Nat) : Nat :=
  if 97 ≤ c ∧ c ≤ 102 then c - 32
  else if 65 ≤ c ∧ c ≤ 70 then c + 32
  else c

/-- `caseVariantB a a2` holds when `a2` is obtained from `a` by flipping the
case of some subset of its hex-letter positions. -/
def caseVariantB : List Nat → List Nat → Bool
  | [], [] => true
  | c :: cs, c2 :: cs2 => (c2 == c || c2 == flipHexCase c) && caseVariantB cs cs2
  | _, _ => false

/-- Fetch oracle that fails exactly on block 103 (scenario S3). -/
def fetch103 (n : Nat) : Bool := !(n == 103)

/-- A watched address, already lowercase: the code points of the string
composed of the four characters 0, x, a, b. -/
def watchedAddr : Addr := [48, 120, 97, 98]

/-- An unwatched address: code points of the four characters 0, x, c, d. -/
def otherAddr : Addr := [48, 120, 99, 100]

/-- A small concrete configuration: threshold 100 wei, one watched address. -/
def cfgW : AppConfig :=
  { thresholdWei := 100
    watchedAddressesSet := [watchedAddr]
    addressLabelMap := [] }

/-- A qualifying transaction from the watched address, not yet mined. -/
def txPend : Tx :=
  { hash := 5, txFrom := watchedAddr, txTo := some otherAddr, value := 150,
    blockNumber := none }

/-- The same transaction as returned by `getTransaction` after it was mined
into block 9. -/
def txMined : Tx := { txPend with blockNumber := some 9 }

/-- The confirmed event the block path builds for `txPend` in block 12. -/
def evC7 : TransferEvent :=
  { type := EventType.confirmed
    txHash := 5
    blockNumber := some 12
    txFrom := watchedAddr
    fromLabel := none
    txTo := some otherAddr
    toLabel := none
    valueWei := 150
    watchedSide := WatchedSide.fromSide
    seenInMempool := false }

/-- Scenario S6: the pending path admits hash 5, then the same transaction
appears in confirmed block 12. -/
def opsC2 : List PipeOp :=
  [PipeOp.pendingTx (some txPend) 5, PipeOp.confirmedTx txPend 12]

/-- A health record with two recorded failures. -/
def healthC : EndpointHealth :=
  { status := EndpointStatus.degraded, failCount := 2, lastErrorTime := 0,
    lastSuccessTime := 0, nextAvailableTime := 0 }

/-- A three-endpoint ring whose first endpoint (atom 10) is down. -/
def epsW : List Nat := [10, 20, 30]

/-- Health map for `epsW`: endpoint 10 is down, the others are healthy. -/
def hmW (endpoint : Nat) : EndpointHealth :=
  if endpoint = 10 then
    { status := EndpointStatus.down, failCount := 3, lastErrorTime := 0,
      lastSuccessTime := 0, nextAvailableTime := 0 }
  else
    { status := EndpointStatus.healthy, failCount := 0, lastErrorTime := 0,
      lastSuccessTime := 0, nextAvailableTime := 0 }

/-! ### Theorems: address layer -/

/-- Flipping the case of a code point does not change its lowercase image. -/
theorem toLowerCode_flipHexCase (c : Nat) : toLowerCode (flipHexCase c) = toLowerCode c := by
  unfold flipHexCase toLowerCode
  split_ifs <;> omega

/-- Case variants have the same normalization. -/
theorem caseVariantB_normalize :
    ∀ (a a2 : List Nat), caseVariantB a a2 = true → normalizeAddress a2 = normalizeAddress a := by
  intro a
  induction a with
  | nil =>
    intro a2 h
    cases a2 with
    | nil => rfl
    | cons c cs => simp [caseVariantB] at h
  | cons c cs ih =>
    intro a2 h
    cases a2 with
    | nil => simp [caseVariantB] at h
    | cons c2 cs2 =>
      simp only [caseVariantB, Bool.and_eq_true, Bool.or_eq_true, beq_iff_eq] at h
      obtain ⟨hc, hcs⟩ := h
      simp only [normalizeAddress, List.map_cons, List.cons.injEq]
      refine ⟨?_, ih cs2 hcs⟩
      rcases hc with h1 | h1
      · rw [h1]
      · rw [h1, toLowerCode_flipHexCase]

/-- C9: whether an address is watched is invariant under flipping the case of
any subset of its hex digits — `isAddressWatched` only sees the lowercase
normalization, which `caseVariantB`-related addresses share. -/
theorem watched_case_insensitive (a a2 : Addr) (watchedSet : List Addr)
    (h : caseVariantB a a2 = true) :
    isAddressWatched a2 watchedSet = isAddressWatched a watchedSet := by
  unfold isAddressWatched
  rw [caseVariantB_normalize a a2 h]

/-- Witness for C9 at a concrete case flip of the two hex letters of the
watched address. -/
theorem watched_case_insensitive_witness :
    caseVariantB [48, 120, 97, 66] [48, 120, 65, 98] = true ∧
    isAddressWatched [48, 120, 65, 98] [watchedAddr]
      = isAddressWatched [48, 120, 97, 66] [watchedAddr] :=
  ⟨by decide, watched_case_insensitive [48, 120, 97, 66] [48, 120, 65, 98] [watchedAddr] (by decide)⟩

/-- When the `to` side is present, `getWatchedSide` is `some` exactly when one
of the two sides is watched. -/
theorem getWatchedSide_isSome (txFrom t : Addr) (watchedSet : List Addr) :
    (getWatchedSide txFrom (some t) watchedSet).isSome
      = (isAddressWatched txFrom watchedSet || isAddressWatched t watchedSet) := by
  unfold getWatchedSide
  cases hf : isAddressWatched txFrom watchedSet <;>
    cases ht : isAddressWatched t watchedSet <;> simp [hf, ht]

/-- C4: `shouldProcessTransaction` admits a transaction exactly when its hash
is unseen, it has a recipient, its value is at least the threshold (so a value
equal to the threshold is admitted and one strictly below is not), and the
lowercase normalization of the sender or of the recipient is watched. -/
theorem shouldProcessTransaction_iff (tx : Tx) (config : AppConfig) (seenTxHashes : List Nat) :
    shouldProcessTransaction tx config seenTxHashes = true ↔
      tx.hash ∉ seenTxHashes ∧
      ∃ t, tx.txTo = some t ∧ config.thresholdWei ≤ tx.value ∧
        (normalizeAddress tx.txFrom ∈ config.watchedAddressesSet ∨
         normalizeAddress t ∈ config.watchedAddressesSet) := by
  by_cases hseen : tx.hash ∈ seenTxHashes
  · simp [shouldProcessTransaction, hseen]
  · cases hto : tx.txTo with
    | none => simp [shouldProcessTransaction, hseen, hto]
    | some t =>
      by_cases hv : tx.value < config.thresholdWei
      · have hfalse : shouldProcessTransaction tx config seenTxHashes = false := by
          simp [shouldProcessTransaction, hseen, hto, hv]
        rw [hfalse]
        simp only [Bool.false_eq_true, false_iff, not_and]
        intro hs
        rintro ⟨t2, ht2, hle, -⟩
        omega
      · simp only [shouldProcessTransaction, if_neg hseen, hto, if_neg hv, hto,
          getWatchedSide_isSome, Bool.or_eq_true, isAddressWatched, decide_eq_true_eq]
        constructor
        · intro h
          exact ⟨hseen, t, rfl, by omega, h⟩
        · rintro ⟨-, t2, ht2, -, hmem⟩
          cases ht2
          exact hmem

/-- Fields of a successfully built transfer event. -/
theorem buildTransferEvent_some (tx : Tx) (config : AppConfig) (type : EventType)
    (seenInMempool : Bool) (e : TransferEvent)
    (h : buildTransferEvent tx config type seenInMempool = some e) :
    e.type = type ∧ e.txHash = tx.hash ∧ e.blockNumber = tx.blockNumber ∧
      e.seenInMempool = seenInMempool := by
  unfold buildTransferEvent at h
  cases hws : getWatchedSide tx.txFrom tx.txTo config.watchedAddressesSet with
  | none => rw [hws] at h; simp at h
  | some ws =>
    rw [hws] at h
    simp only [Option.some.injEq] at h
    subst h
    exact ⟨rfl, rfl, rfl, rfl⟩

/-- A transaction passing the filter has a watched side. -/
theorem shouldProcess_watchedSide (tx : Tx) (config : AppConfig) (seenTxHashes : List Nat)
    (h : shouldProcessTransaction tx config seenTxHashes = true) :
    (getWatchedSide tx.txFrom tx.txTo config.watchedAddressesSet).isSome = true := by
  by_cases hseen : tx.hash ∈ seenTxHashes
  · simp [shouldProcessTransaction, hseen] at h
  · cases hto : tx.txTo with
    | none => simp [shouldProcessTransaction, hseen, hto] at h
    | some t =>
      by_cases hv : tx.value < config.thresholdWei
      · simp [shouldProcessTransaction, hseen, hto, hv] at h
      · simp only [shouldProcessTransaction, if_neg hseen, hto, if_neg hv] at h
        exact h

/-- C10: `buildTransferEvent` throws exactly when `getWatchedSide` returns
null, and under the precondition that `shouldProcessTransaction` admitted the
same transaction and config, it returns an event without throwing. -/
theorem buildTransferEvent_safe (tx : Tx) (config : AppConfig) (type : EventType)
    (seenInMempool : Bool) :
    (buildTransferEvent tx config type seenInMempool = none ↔
       getWatchedSide tx.txFrom tx.txTo config.watchedAddressesSet = none) ∧
    ∀ seenTxHashes, shouldProcessTransaction tx config seenTxHashes = true →
      ∃ e, buildTransferEvent tx config type seenInMempool = some e := by
  constructor
  · unfold buildTransferEvent
    cases hws : getWatchedSide tx.txFrom tx.txTo config.watchedAddressesSet <;> simp
  · intro seenTxHashes hsp
    have hs := shouldProcess_watchedSide tx config seenTxHashes hsp
    obtain ⟨ws, hws⟩ := Option.isSome_iff_exists.mp hs
    exact ⟨_, by unfold buildTransferEvent; rw [hws]⟩

/-- Witness for C10: the filter admits `txPend`, and the builder returns an
event for it. -/
theorem buildTransferEvent_safe_witness :
    shouldProcessTransaction txPend cfgW [] = true ∧
    ∃ e, buildTransferEvent txPend cfgW EventType.pending true = some e :=
  ⟨by decide, (buildTransferEvent_safe txPend cfgW EventType.pending true).2 [] (by decide)⟩

/-! ### Theorems: endpoint failure bookkeeping (C5) -/

/-- Counterexample to C5: the OnClose signal from the active client runs
`handleDisconnection`, which bumps `failCount` to 3 and stamps
`lastErrorTime`, but leaves `nextAvailableTime` untouched and marks the
endpoint Degraded instead of Down — contradicting the claim that every
endpoint-attributable error sets `nextAvailableTime = now + cooldown` and
escalates to Down at `failCount ≥ 3`. -/
theorem onclose_no_cooldown :
    handleDisconnection 1000 healthC =
      { status := EndpointStatus.degraded, failCount := 3, lastErrorTime := 1000,
        lastSuccessTime := 0, nextAvailableTime := 0 } ∧
    (handleDisconnection 1000 healthC).status ≠ EndpointStatus.down ∧
    (handleDisconnection 1000 healthC).nextAvailableTime
      ≠ 1000 + min (2 ^ 3 * 5000) 300000 := by
  refine ⟨rfl, by decide, by decide⟩

/-- C5 as amended: `handleConnectionError` (connection-attempt failures and
the OnError socket signal) performs the full bookkeeping — increment
`failCount`, stamp `lastErrorTime`, set `nextAvailableTime` to now plus
`min(2^failCount · baseDelay, maxCooldown)` for the incremented count, and set
the status to Down at `failCount ≥ 3` and Degraded below — while
`handleDisconnection` (the OnClose signal) only increments `failCount`,
stamps `lastErrorTime` and marks the endpoint Degraded, leaving
`nextAvailableTime` unchanged. -/
theorem failure_bookkeeping_amended (config : RpcPoolConfig) (now : Nat)
    (health : EndpointHealth) :
    ((handleConnectionError config now health).failCount = health.failCount + 1 ∧
     (handleConnectionError config now health).lastErrorTime = now ∧
     (handleConnectionError config now health).nextAvailableTime
       = now + min (2 ^ (health.failCount + 1) * config.baseDelay) config.maxCooldown ∧
     (handleConnectionError config now health).status
       = (if health.failCount + 1 ≥ 3 then EndpointStatus.down
          else EndpointStatus.degraded)) ∧
    ((handleDisconnection now health).failCount = health.failCount + 1 ∧
     (handleDisconnection now health).lastErrorTime = now ∧
     (handleDisconnection now health).status = EndpointStatus.degraded ∧
     (handleDisconnection now health).nextAvailableTime = health.nextAvailableTime) := by
  unfold handleConnectionError handleDisconnection
  by_cases h3 : health.failCount + 1 ≥ 3 <;> simp [h3]

/-! ### Theorems: event shape (C7) -/

/-- Counterexample to C7: a transaction that was mined into block 9 between
the mempool notification and the `getTransaction` fetch is emitted by the
pending path as a Pending event that carries `blockNumber = some 9`, so
`blockNumber` is not absent on every pending event. -/
theorem pending_event_with_blockNumber :
    ((processPendingTransaction (some txMined) cfgW 5 []).2.map
        (fun e => (e.type, e.blockNumber, e.seenInMempool)))
      = [(EventType.pending, some 9, true)] := by decide

/-- C7 as amended: every event emitted by the confirmed path has type
Confirmed, `seenInMempool = false` and `blockNumber` equal to the containing
block's number; every event emitted by the pending path has type Pending,
`seenInMempool = true`, and `blockNumber` equal to the `blockNumber` field of
the fetched transaction — which is `none` whenever the transaction is still
pending at fetch time, but may be present if it was mined in between. -/
theorem event_shape_amended (config : AppConfig) :
    (∀ tx blockNumber seenTxHashes e,
       e ∈ (processBlockTransaction tx blockNumber config seenTxHashes).2 →
       e.type = EventType.confirmed ∧ e.seenInMempool = false ∧
       e.blockNumber = some blockNumber) ∧
    (∀ tx txHash seenTxHashes e,
       e ∈ (processPendingTransaction (some tx) config txHash seenTxHashes).2 →
       e.type = EventType.pending ∧ e.seenInMempool = true ∧
       e.blockNumber = tx.blockNumber) := by
  constructor
  · intro tx blockNumber seenTxHashes e he
    unfold processBlockTransaction at he
    by_cases hseen : decide (tx.hash ∈ seenTxHashes) = true
    · simp only [hseen] at he
      split at he <;> simp at he
    · simp only [Bool.not_eq_true] at hseen
      simp only [hseen] at he
      split at he
      · simp at he
      · cases hb : buildTransferEvent { tx with blockNumber := some blockNumber } config
            EventType.confirmed false with
        | none => rw [hb] at he; simp at he
        | some ev =>
          rw [hb] at he
          simp at he
          subst he
          obtain ⟨h1, h2, h3, h4⟩ := buildTransferEvent_some _ _ _ _ _ hb
          exact ⟨h1, h4, h3⟩
  · intro tx txHash seenTxHashes e he
    simp only [processPendingTransaction] at he
    cases hsp : shouldProcessTransaction tx config seenTxHashes with
    | false => rw [hsp] at he; simp at he
    | true =>
      rw [hsp] at he
      simp only [Bool.not_true, Bool.false_eq_true, if_false] at he
      cases hb : buildTransferEvent tx config EventType.pending true with
      | none => rw [hb] at he; simp at he
      | some ev =>
        rw [hb] at he
        simp at he
        subst he
        obtain ⟨h1, h2, h3, h4⟩ := buildTransferEvent_some _ _ _ _ _ hb
        exact ⟨h1, h4, h3⟩

/-- Witness for C7 (amended) at the concrete confirmed emission of `txPend`
in block 12. -/
theorem event_shape_witness :
    evC7 ∈ (processBlockTransaction txPend 12 cfgW []).2 ∧
    (evC7.type = EventType.confirmed ∧ evC7.seenInMempool = false ∧
     evC7.blockNumber = some 12) :=
  ⟨by decide, (event_shape_amended cfgW).1 txPend 12 [] evC7 (by decide)⟩

/-! ### Theorems: at-most-once emission (C2) -/

/-- An admitted transaction's hash was not in the dedup set. -/
theorem shouldProcess_not_seen (tx : Tx) (config : AppConfig) (seenTxHashes : List Nat)
    (h : shouldProcessTransaction tx config seenTxHashes = true) :
    tx.hash ∉ seenTxHashes := by
  intro hmem
  simp [shouldProcessTransaction, hmem] at h

/-- One pipeline step only grows the dedup set, and emits either nothing or a
single event whose hash was unseen before the step and is in the dedup set
after it. -/
theorem stepOp_spec (config : AppConfig) (seenTxHashes : List Nat) (op : PipeOp)
    (hwf : wfOp op = true) :
    (∀ x ∈ seenTxHashes, x ∈ (stepOp config seenTxHashes op).1) ∧
    ((stepOp config seenTxHashes op).2 = [] ∨
      ∃ e, (stepOp config seenTxHashes op).2 = [e] ∧ e.txHash ∉ seenTxHashes ∧
        e.txHash ∈ (stepOp config seenTxHashes op).1) := by
  cases op with
  | pendingTx txOpt txHash =>
    cases txOpt with
    | none => exact ⟨fun x hx => hx, Or.inl rfl⟩
    | some tx =>
      have htx : tx.hash = txHash := by
        simpa [wfOp] using hwf
      cases hsp : shouldProcessTransaction tx config seenTxHashes with
      | false =>
        have hstep : stepOp config seenTxHashes (PipeOp.pendingTx (some tx) txHash)
            = (seenTxHashes, []) := by
          simp [stepOp, processPendingTransaction, hsp]
        rw [hstep]
        exact ⟨fun x hx => hx, Or.inl rfl⟩
      | true =>
        have hns := shouldProcess_not_seen tx config seenTxHashes hsp
        cases hb : buildTransferEvent tx config EventType.pending true with
        | none =>
          have hstep : stepOp config seenTxHashes (PipeOp.pendingTx (some tx) txHash)
              = (txHash :: seenTxHashes, []) := by
            simp [stepOp, processPendingTransaction, hsp, hb]
          rw [hstep]
          exact ⟨fun x hx => List.mem_cons_of_mem _ hx, Or.inl rfl⟩
        | some ev =>
          have hev := buildTransferEvent_some _ _ _ _ _ hb
          have hstep : stepOp config seenTxHashes (PipeOp.pendingTx (some tx) txHash)
              = (txHash :: seenTxHashes, [ev]) := by
            simp [stepOp, processPendingTransaction, hsp, hb]
          rw [hstep]
          refine ⟨fun x hx => List.mem_cons_of_mem _ hx, Or.inr ⟨ev, rfl, ?_, ?_⟩⟩
          · rw [hev.2.1]; exact hns
          · rw [hev.2.1, htx]; exact List.mem_cons_self _ _
  | confirmedTx tx blockNumber =>
    cases hseen : decide (tx.hash ∈ seenTxHashes) with
    | true =>
      have hstep : stepOp config seenTxHashes (PipeOp.confirmedTx tx blockNumber)
          = (seenTxHashes, []) := by
        simp [stepOp, processBlockTransaction, hseen]
      rw [hstep]
      exact ⟨fun x hx => hx, Or.inl rfl⟩
    | false =>
      have hns : tx.hash ∉ seenTxHashes := of_decide_eq_false hseen
      cases hsp : shouldProcessTransaction { tx with blockNumber := some blockNumber }
          config seenTxHashes with
      | false =>
        have hstep : stepOp config seenTxHashes (PipeOp.confirmedTx tx blockNumber)
            = (seenTxHashes, []) := by
          simp [stepOp, processBlockTransaction, hseen, hsp]
        rw [hstep]
        exact ⟨fun x hx => hx, Or.inl rfl⟩
      | true =>
        cases hb : buildTransferEvent { tx with blockNumber := some blockNumber } config
            EventType.confirmed false with
        | none =>
          have hstep : stepOp config seenTxHashes (PipeOp.confirmedTx tx blockNumber)
              = (tx.hash :: seenTxHashes, []) := by
            simp [stepOp, processBlockTransaction, hseen, hsp, hb]
          rw [hstep]
          exact ⟨fun x hx => List.mem_cons_of_mem _ hx, Or.inl rfl⟩
        | some ev =>
          have hev := buildTransferEvent_some _ _ _ _ _ hb
          have hstep : stepOp config seenTxHashes (PipeOp.confirmedTx tx blockNumber)
              = (tx.hash :: seenTxHashes, [ev]) := by
            simp [stepOp, processBlockTransaction, hseen, hsp, hb]
          rw [hstep]
          refine ⟨fun x hx => List.mem_cons_of_mem _ hx, Or.inr ⟨ev, rfl, ?_, ?_⟩⟩
          · rw [hev.2.1]; exact hns
          · rw [hev.2.1]; exact List.mem_cons_self _ _

/-- A hash already in the dedup set produces no further events, and stays in
the set. -/
theorem runPipe_countP_zero (config : AppConfig) (h : Nat) :
    ∀ (ops : List PipeOp) (seenTxHashes : List Nat),
      (∀ op ∈ ops, wfOp op = true) → h ∈ seenTxHashes →
      (runPipe config ops seenTxHashes).2.countP (fun e => e.txHash == h) = 0 ∧
      h ∈ (runPipe config ops seenTxHashes).1 := by
  intro ops
  induction ops with
  | nil => intro seen _ hmem; exact ⟨rfl, hmem⟩
  | cons op ops ih =>
    intro seen hwf hmem
    have hop := hwf op (List.mem_cons_self _ _)
    have hops : ∀ o ∈ ops, wfOp o = true := fun o ho => hwf o (List.mem_cons_of_mem _ ho)
    obtain ⟨hsub, hev⟩ := stepOp_spec config seen op hop
    have hrest := ih (stepOp config seen op).1 hops (hsub h hmem)
    simp only [runPipe, List.countP_append]
    refine ⟨?_, hrest.2⟩
    have hz : (stepOp config seen op).2.countP (fun e => e.txHash == h) = 0 := by
      rcases hev with hnil | ⟨e, he, hnotin, -⟩
      · rw [hnil]; rfl
      · rw [he]
        have hne : (e.txHash == h) = false := by
          apply beq_eq_false_iff_ne.mpr
          intro hq
          exact hnotin (hq ▸ hmem)
        simp [List.countP_cons, hne]
    have h0 := hrest.1
    omega

/-- Any trace of pipeline events contains at most one event per hash. -/
theorem runPipe_countP_le_one (config : AppConfig) (h : Nat) :
    ∀ (ops : List PipeOp) (seenTxHashes : List Nat),
      (∀ op ∈ ops, wfOp op = true) →
      (runPipe config ops seenTxHashes).2.countP (fun e => e.txHash == h) ≤ 1 := by
  intro ops
  induction ops with
  | nil => intro seen _; exact Nat.zero_le 1
  | cons op ops ih =>
    intro seen hwf
    have hop := hwf op (List.mem_cons_self _ _)
    have hops : ∀ o ∈ ops, wfOp o = true := fun o ho => hwf o (List.mem_cons_of_mem _ ho)
    obtain ⟨hsub, hev⟩ := stepOp_spec config seen op hop
    simp only [runPipe, List.countP_append]
    rcases hev with hnil | ⟨e, he, hnotin, hin⟩
    · rw [hnil]
      simpa using ih (stepOp config seen op).1 hops
    · rw [he]
      by_cases heh : e.txHash = h
      · have h1 : List.countP (fun e => e.txHash == h) [e] = 1 := by
          simp [List.countP_cons, heh]
        have h0 : (runPipe config ops (stepOp config seen op).1).2.countP
            (fun e => e.txHash == h) = 0 :=
          (runPipe_countP_zero config h ops (stepOp config seen op).1 hops (heh ▸ hin)).1
        omega
      · have h1 : List.countP (fun e => e.txHash == h) [e] = 0 := by
          simp [List.countP_cons, heh]
        have h2 := ih (stepOp config seen op).1 hops
        omega

/-- Two distinct members both satisfying a predicate force a count of at
least two. -/
theorem two_mem_countP {α : Type} (p : α → Bool) :
    ∀ (l : List α) (e1 e2 : α), e1 ∈ l → e2 ∈ l → e1 ≠ e2 →
      p e1 = true → p e2 = true → 2 ≤ l.countP p := by
  intro l
  induction l with
  | nil => intro e1 e2 h1; cases h1
  | cons a l ih =>
    intro e1 e2 h1 h2 hne hp1 hp2
    rcases List.mem_cons.mp h1 with rfl | h1t
    · rcases List.mem_cons.mp h2 with rfl | h2t
      · exact absurd rfl hne
      · rw [List.countP_cons_of_pos p l hp1]
        have hpos : 0 < l.countP p := List.countP_pos_iff.mpr ⟨e2, h2t, hp2⟩
        omega
    · rcases List.mem_cons.mp h2 with rfl | h2t
      · rw [List.countP_cons_of_pos p l hp2]
        have hpos : 0 < l.countP p := List.countP_pos_iff.mpr ⟨e1, h1t, hp1⟩
        omega
      · have hih := ih e1 e2 h1t h2t hne hp1 hp2
        rw [List.countP_cons]
        omega

/-- C2: across any well-formed sequential interleaving of the pending and
confirmed paths sharing one dedup set, the sink receives at most one event
per transaction hash; in particular the trace never contains both a Pending
and a Confirmed event for the same hash. -/
theorem at_most_once_emission (config : AppConfig) (ops : List PipeOp)
    (hwf : ∀ op ∈ ops, wfOp op = true) (h : Nat) :
    (runPipe config ops []).2.countP (fun e => e.txHash == h) ≤ 1 ∧
    ¬ ∃ e1 e2, e1 ∈ (runPipe config ops []).2 ∧ e2 ∈ (runPipe config ops []).2 ∧
        e1.txHash = h ∧ e2.txHash = h ∧ e1.type = EventType.pending ∧
        e2.type = EventType.confirmed := by
  have hle := runPipe_countP_le_one config h ops [] hwf
  refine ⟨hle, ?_⟩
  rintro ⟨e1, e2, h1, h2, hh1, hh2, ht1, ht2⟩
  have hne : e1 ≠ e2 := by
    intro hq
    rw [hq, ht2] at ht1
    cases ht1
  have h2c := two_mem_countP (fun e => e.txHash == h) _ e1 e2 h1 h2 hne
    (by simp [hh1]) (by simp [hh2])
  omega

/-- Witness for C2 at scenario S6: the pending path admits hash 5, the same
transaction later appears in a confirmed block, and only the Pending event is
emitted. -/
theorem at_most_once_emission_witness :
    (∀ op ∈ opsC2, wfOp op = true) ∧
    (runPipe cfgW opsC2 []).2.countP (fun e => e.txHash == 5) ≤ 1 ∧
    (runPipe cfgW opsC2 []).2.map (fun e => e.type) = [EventType.pending] :=
  ⟨by decide, (at_most_once_emission cfgW opsC2 (by decide) 5).1, by decide⟩

/-! ### Theorems: block continuity (C1, C6, C3) -/

/-- The backfill loop emits one entry per listed block — the block on fetch
success, an error report on failure — and leaves the counter at the last
successful block (or its initial value). -/
theorem backfillGo_spec (fetch : Nat → Bool) :
    ∀ (bs : List Nat) (lastProcessed : Nat),
      backfillGo fetch bs lastProcessed =
        (bs.map (emitOf fetch),
         bs.foldl (fun acc b => if fetch b then b else acc) lastProcessed) := by
  intro bs
  induction bs with
  | nil => intro lp; rfl
  | cons b bs ih =>
    intro lp
    cases hb : fetch b with
    | true => simp [backfillGo, hb, emitOf, ih]
    | false => simp [backfillGo, hb, emitOf, ih]

/-- `processNewBlock` on a gap (or in-order) head whose own fetch succeeds:
every missing block is attempted in ascending order — failures are reported
and skipped, successes delivered — the head itself is delivered, and
`lastProcessedBlockNumber` ends at the head. -/
theorem processNewBlock_spec (fetch : Nat → Bool) (lastProcessed n : Nat)
    (hf : fetch n = true) (hlt : lastProcessed < n) :
    processNewBlock fetch (some lastProcessed) n =
      ((List.range' (lastProcessed + 1) (n - lastProcessed - 1)).map (emitOf fetch)
         ++ [Emit.block n], some n, false) := by
  by_cases h1 : n = lastProcessed + 1
  · subst h1
    have hz : lastProcessed + 1 - lastProcessed - 1 = 0 := by omega
    simp [processNewBlock, hf, hz]
  · have h2 : n > lastProcessed + 1 := by omega
    simp only [processNewBlock, if_neg h1, if_pos h2, hf, if_pos rfl, if_true]
    rw [backfillBlocks, backfillGo_spec]
    have hc : n - 1 + 1 - (lastProcessed + 1) = n - lastProcessed - 1 := by omega
    rw [hc]

/-- With an always-succeeding fetch, one `processNewBlock` call covers the
half-open gap plus the head as one ascending block range. -/
theorem processNewBlock_true (lastProcessed n : Nat) (hlt : lastProcessed < n) :
    processNewBlock (fun _ => true) (some lastProcessed) n =
      ((List.range' (lastProcessed + 1) (n - lastProcessed)).map Emit.block,
       some n, false) := by
  rw [processNewBlock_spec (fun _ => true) lastProcessed n rfl hlt]
  have h1 : (List.range' (lastProcessed + 1) (n - lastProcessed - 1)).map
        (emitOf (fun _ => true))
      = (List.range' (lastProcessed + 1) (n - lastProcessed - 1)).map Emit.block :=
    List.map_congr_left (fun b _ => by simp [emitOf])
  rw [h1]
  have h3 : n - lastProcessed = (n - lastProcessed - 1) + 1 := by omega
  rw [h3, List.range'_concat]
  have h4 : lastProcessed + 1 + 1 * (n - lastProcessed - 1) = n := by omega
  rw [h4, List.map_append]
  rfl

/-- The head of a strictly increasing chain is below the chain's last
element. -/
theorem chain_lt_getLast :
    ∀ (l : List Nat) (a b : Nat),
      List.Chain (· < ·) a l → l.getLast? = some b → a < b := by
  intro l
  induction l with
  | nil => intro a b _ hl; cases hl
  | cons c cs ih =>
    intro a b hch hl
    rw [List.chain_cons] at hch
    cases cs with
    | nil =>
      have hb : c = b := by simpa using hl
      exact hb ▸ hch.1
    | cons d ds =>
      rw [List.getLast?_cons_cons] at hl
      exact lt_trans hch.1 (ih c b hch.2 hl)

/-- One-step unfolding of `runHeads` given the head's processing result. -/
theorem runHeads_cons (fetch : Nat → Bool) (lp : Option Nat) (n : Nat) (ns : List Nat)
    (es : List Emit) (lp2 : Option Nat) (thrw : Bool)
    (h : processNewBlock fetch lp n = (es, lp2, thrw)) :
    runHeads fetch lp (n :: ns) =
      (es ++ (runHeads fetch lp2 ns).1, (runHeads fetch lp2 ns).2) := by
  simp [runHeads, h]

/-- C1: after initialization at `n0`, feeding any strictly increasing head
sequence whose heads all exceed `n0` (with every fetch and `onBlock` call
succeeding) delivers exactly the blocks `n0+1, …, nk` to `onBlock`, in
ascending order and each exactly once, and leaves `lastProcessed = nk`. -/
theorem continuity_coverage (n0 nk : Nat) :
    ∀ (ns : List Nat), List.Chain (· < ·) n0 ns → ns.getLast? = some nk →
      runHeads (fun _ => true) (some n0) ns =
        ((List.range' (n0 + 1) (nk - n0)).map Emit.block, some nk) := by
  intro ns
  induction ns generalizing n0 with
  | nil => intro _ hl; cases hl
  | cons n ms ih =>
    intro hch hl
    rw [List.chain_cons] at hch
    cases ms with
    | nil =>
      have hb : n = nk := by simpa using hl
      subst hb
      simp [runHeads, processNewBlock_true n0 n hch.1]
    | cons d ds =>
      rw [List.getLast?_cons_cons] at hl
      have hnnk : n < nk := chain_lt_getLast _ n nk hch.2 hl
      have ihr := ih n hch.2 hl
      rw [runHeads_cons (fun _ => true) (some n0) n (d :: ds) _ _ _
            (processNewBlock_true n0 n hch.1), ihr]
      simp only [← List.map_append]
      have happ := List.range'_append (n0 + 1) (n - n0) (nk - n) 1
      have e1 : n0 + 1 + 1 * (n - n0) = n + 1 := by omega
      have e2 : nk - n + (n - n0) = nk - n0 := by omega
      rw [e1, e2] at happ
      rw [happ]

/-- Witness for C1 at `n0 = 100` and heads `101, 102, 105`. -/
theorem continuity_coverage_witness :
    List.Chain (· < ·) 100 [101, 102, 105] ∧
    runHeads (fun _ => true) (some 100) [101, 102, 105] =
      ((List.range' 101 5).map Emit.block, some 105) := by
  have hch : List.Chain (· < ·) 100 [101, 102, 105] :=
    List.Chain.cons (by omega)
      (List.Chain.cons (by omega) (List.Chain.cons (by omega) List.Chain.nil))
  exact ⟨hch, continuity_coverage 100 105 [101, 102, 105] hch rfl⟩

/-- C6: a backfill-block failure is reported and skipped without aborting the
loop — every other block of the gap is still delivered in order — and once
the triggering head `n` (whose own fetch succeeds) is processed,
`lastProcessed = n`; the emitted entry for each gap block is its block on
success and an error report on failure. -/
theorem backfill_error_tolerance (fetch : Nat → Bool) (lastProcessed n : Nat)
    (hf : fetch n = true) (hlt : lastProcessed < n) :
    processNewBlock fetch (some lastProcessed) n =
      ((List.range' (lastProcessed + 1) (n - lastProcessed - 1)).map (emitOf fetch)
         ++ [Emit.block n], some n, false) :=
  processNewBlock_spec fetch lastProcessed n hf hlt

/-- Witness for C6 at scenario S3: fetch fails exactly on block 103; after
heads 101 then 105 from initialization at 100, `onBlock` gets 101, 102, 104,
105, one error is reported for 103, and `lastProcessed = 105`. -/
theorem backfill_error_tolerance_witness :
    (fetch103 105 = true ∧ 101 < 105) ∧
    processNewBlock fetch103 (some 101) 105 =
      ((List.range' (101 + 1) (105 - 101 - 1)).map (emitOf fetch103)
         ++ [Emit.block 105], some 105, false) ∧
    runHeads fetch103 (some 100) [101, 105] =
      ([Emit.block 101, Emit.block 102, Emit.error 103, Emit.block 104,
        Emit.block 105], some 105) :=
  ⟨⟨rfl, by omega⟩, backfill_error_tolerance fetch103 101 105 rfl (by omega), by decide⟩

/-- Counterexample to C3: in a run that initializes at head 100 and then sees
a reconnection to a node whose tip is 50 (the possible-reorg branch),
`handleReconnection` assigns `lastProcessed = 50`, strictly below the 100 it
previously held — so `lastProcessed` is not monotonically non-decreasing
across all three operations. -/
theorem reconnection_decreases_lastProcessed :
    handleReconnection (fun _ => true) 50 (some 100) = ([], some 50) ∧ 50 < 100 :=
  ⟨by decide, by omega⟩

/-- The backfill loop never drops the counter below a bound the initial value
and all listed blocks respect. -/
theorem backfillGo_ge (fetch : Nat → Bool) :
    ∀ (bs : List Nat) (lastProcessed m : Nat),
      m ≤ lastProcessed → (∀ b ∈ bs, m ≤ b) →
      m ≤ (backfillGo fetch bs lastProcessed).2 := by
  intro bs
  induction bs with
  | nil => intro lp m h _; exact h
  | cons b bs ih =>
    intro lp m h hb
    cases hfb : fetch b with
    | true =>
      simp only [backfillGo, hfb, if_true]
      exact ih b m (hb b (List.mem_cons_self b bs))
        (fun x hx => hb x (List.mem_cons_of_mem _ hx))
    | false =>
      simp only [backfillGo, hfb, Bool.false_eq_true, if_false]
      exact ih lp m h (fun x hx => hb x (List.mem_cons_of_mem _ hx))

/-- C3 as amended: `lastProcessed` never decreases across `processNewBlock`
(even when fetches fail mid-backfill), and never decreases across
`handleReconnection` as long as the new node's tip is not behind it; in the
remaining possible-reorg branch (`latest < lastProcessed`) the engine
deliberately assigns `lastProcessed = latest`, a strict decrease. -/
theorem lastProcessed_monotone_amended (fetch : Nat → Bool) :
    (∀ (lastProcessed : Option Nat) (n x : Nat), lastProcessed = some x →
       ∃ y, (processNewBlock fetch lastProcessed n).2.1 = some y ∧ x ≤ y) ∧
    (∀ (latest x : Nat), x ≤ latest →
       ∃ y, (handleReconnection fetch latest (some x)).2 = some y ∧ x ≤ y) ∧
    (∀ (latest x : Nat), latest < x →
       (handleReconnection fetch latest (some x)).2 = some latest) := by
  refine ⟨?_, ?_, ?_⟩
  · rintro lp n x rfl
    by_cases h1 : n = x + 1
    · subst h1
      cases hf : fetch (x + 1) with
      | true => exact ⟨x + 1, by simp [processNewBlock, hf], by omega⟩
      | false => exact ⟨x, by simp [processNewBlock, hf], le_refl x⟩
    · by_cases h2 : n > x + 1
      · cases hf : fetch n with
        | true => exact ⟨n, by simp [processNewBlock, h1, h2, hf], by omega⟩
        | false =>
          refine ⟨(backfillBlocks fetch (x + 1) (n - 1) x).2, ?_, ?_⟩
          · simp [processNewBlock, h1, h2, hf]
          · rw [backfillBlocks]
            refine backfillGo_ge fetch _ x x (le_refl x) ?_
            intro b hbm
            rw [List.mem_range'_1] at hbm
            omega
      · exact ⟨x, by simp [processNewBlock, h1, h2], le_refl x⟩
  · intro latest x hle
    by_cases h1 : latest > x
    · exact ⟨latest, by simp [handleReconnection, h1], by omega⟩
    · have h2 : latest = x := by omega
      subst h2
      exact ⟨latest, by simp [handleReconnection], le_refl latest⟩
  · intro latest x hlt
    have h1 : ¬ latest > x := by omega
    have h2 : ¬ latest = x := by omega
    simp [handleReconnection, h1, h2]

/-- Witness for C3 (amended): a normal head, a forward reconnection, and a
possible-reorg reconnection at concrete values. -/
theorem lastProcessed_monotone_witness :
    (∃ y, (processNewBlock (fun _ => true) (some 100) 105).2.1 = some y ∧ 100 ≤ y) ∧
    (∃ y, (handleReconnection (fun _ => true) 106 (some 100)).2 = some y ∧ 100 ≤ y) ∧
    (handleReconnection (fun _ => true) 80 (some 100)).2 = some 80 :=
  ⟨(lastProcessed_monotone_amended (fun _ => true)).1 (some 100) 105 100 rfl,
   (lastProcessed_monotone_amended (fun _ => true)).2.1 106 100 (by omega),
   (lastProcessed_monotone_amended (fun _ => true)).2.2 80 100 (by omega)⟩

/-! ### Theorems: endpoint selection (C8) -/

/-- The ring walk returns exactly the first qualifying endpoint in walk
order, as a `find?` over the offsets. -/
theorem walkRing_found (endpoints : List Nat) (healthMap : Nat → EndpointHealth)
    (now : Nat) :
    ∀ (fuel currentIndex : Nat), currentIndex < endpoints.length →
      (walkRing endpoints healthMap now currentIndex fuel).1 =
        ((List.range fuel).map
            (fun k => endpoints.getD ((currentIndex + k) % endpoints.length) 0)).find?
          (epAvailable healthMap now) := by
  intro fuel
  induction fuel with
  | zero => intro idx _; rfl
  | succ fuel ih =>
    intro idx hidx
    have hN : 0 < endpoints.length := Nat.lt_of_le_of_lt (Nat.zero_le idx) hidx
    rw [List.range_succ_eq_map, List.map_cons]
    have hidx0 : (idx + 0) % endpoints.length = idx := by
      rw [Nat.add_zero, Nat.mod_eq_of_lt hidx]
    rw [hidx0]
    cases hav : epAvailable healthMap now (endpoints.getD idx 0) with
    | true =>
      rw [List.find?_cons_of_pos _ hav, walkRing, if_pos hav]
    | false =>
      have hneg : ¬ (epAvailable healthMap now (endpoints.getD idx 0) = true) := by
        rw [hav]; exact Bool.false_ne_true
      rw [List.find?_cons_of_neg _ hneg, walkRing, if_neg hneg,
        ih ((idx + 1) % endpoints.length) (Nat.mod_lt _ hN), List.map_map]
      congr 1
      apply List.map_congr_left
      intro k _
      simp only [Function.comp_apply]
      rw [Nat.mod_add_mod]
      congr 2
      omega

/-- When the walk finds nothing, `currentIndex` has advanced through the
whole ring, back to its starting value modulo the ring size. -/
theorem walkRing_final (endpoints : List Nat) (healthMap : Nat → EndpointHealth)
    (now : Nat) :
    ∀ (fuel currentIndex : Nat), currentIndex < endpoints.length →
      (walkRing endpoints healthMap now currentIndex fuel).1 = none →
      (walkRing endpoints healthMap now currentIndex fuel).2 =
        (currentIndex + fuel) % endpoints.length := by
  intro fuel
  induction fuel with
  | zero =>
    intro idx hidx _
    simp [walkRing, Nat.mod_eq_of_lt hidx]
  | succ fuel ih =>
    intro idx hidx hnone
    have hN : 0 < endpoints.length := Nat.lt_of_le_of_lt (Nat.zero_le idx) hidx
    cases hav : epAvailable healthMap now (endpoints.getD idx 0) with
    | true =>
      rw [walkRing, if_pos hav] at hnone
      simp at hnone
    | false =>
      have hneg : ¬ (epAvailable healthMap now (endpoints.getD idx 0) = true) := by
        rw [hav]; exact Bool.false_ne_true
      rw [walkRing, if_neg hneg] at hnone ⊢
      rw [ih ((idx + 1) % endpoints.length) (Nat.mod_lt _ hN) hnone, Nat.mod_add_mod]
      congr 1
      omega

/-- The fallback fold returns its seed or a list member. -/
theorem fallbackBest_mem (endpoints : List Nat) (healthMap : Nat → EndpointHealth) :
    ∀ (bestEndpoint : Nat),
      fallbackBest endpoints healthMap bestEndpoint = bestEndpoint ∨
      fallbackBest endpoints healthMap bestEndpoint ∈ endpoints := by
  induction endpoints with
  | nil => intro b; exact Or.inl rfl
  | cons e es ih =>
    intro b
    rw [fallbackBest, List.foldl_cons]
    rcases ih (if (healthMap e).nextAvailableTime < (healthMap b).nextAvailableTime
        then e else b) with h | h
    · rw [fallbackBest] at h
      rw [h]
      split
      · exact Or.inr (List.mem_cons_self _ _)
      · exact Or.inl rfl
    · rw [fallbackBest] at h
      exact Or.inr (List.mem_cons_of_mem _ h)

/-- The fallback fold minimizes `nextAvailableTime` over the seed and the
list. -/
theorem fallbackBest_le (endpoints : List Nat) (healthMap : Nat → EndpointHealth) :
    ∀ (bestEndpoint : Nat),
      (healthMap (fallbackBest endpoints healthMap bestEndpoint)).nextAvailableTime
        ≤ (healthMap bestEndpoint).nextAvailableTime ∧
      ∀ ep ∈ endpoints,
        (healthMap (fallbackBest endpoints healthMap bestEndpoint)).nextAvailableTime
          ≤ (healthMap ep).nextAvailableTime := by
  induction endpoints with
  | nil => intro b; exact ⟨le_refl _, fun ep hep => absurd hep (List.not_mem_nil ep)⟩
  | cons e es ih =>
    intro b
    rw [fallbackBest, List.foldl_cons]
    have hstep := ih (if (healthMap e).nextAvailableTime < (healthMap b).nextAvailableTime
        then e else b)
    rw [fallbackBest] at hstep
    obtain ⟨h1, h2⟩ := hstep
    by_cases hc : (healthMap e).nextAvailableTime < (healthMap b).nextAvailableTime
    · rw [if_pos hc] at h1 h2 ⊢
      refine ⟨le_trans h1 (by omega), ?_⟩
      intro ep hep
      rcases List.mem_cons.mp hep with rfl | hept
      · exact h1
      · exact h2 ep hept
    · rw [if_neg hc] at h1 h2 ⊢
      refine ⟨h1, ?_⟩
      intro ep hep
      rcases List.mem_cons.mp hep with rfl | hept
      · exact le_trans h1 (by omega)
      · exact h2 ep hept

/-- C8: `getCurrentHealthyEndpoint` walks the fixed ring from `currentIndex`
for at most one full round and returns the first endpoint that is not Down
and whose `nextAvailableTime` has passed; when no endpoint in the round
qualifies, it returns an endpoint of the ring achieving the smallest
`nextAvailableTime` of all endpoints. -/
theorem getCurrentHealthyEndpoint_spec (endpoints : List Nat)
    (healthMap : Nat → EndpointHealth) (now currentIndex : Nat)
    (hidx : currentIndex < endpoints.length) :
    (∀ ep, (ringFrom endpoints currentIndex).find? (epAvailable healthMap now) = some ep →
       getCurrentHealthyEndpoint endpoints healthMap now currentIndex = ep) ∧
    ((ringFrom endpoints currentIndex).find? (epAvailable healthMap now) = none →
       getCurrentHealthyEndpoint endpoints healthMap now currentIndex ∈ endpoints ∧
       ∀ ep ∈ endpoints,
         (healthMap
             (getCurrentHealthyEndpoint endpoints healthMap now currentIndex)).nextAvailableTime
           ≤ (healthMap ep).nextAvailableTime) := by
  have hfind := walkRing_found endpoints healthMap now endpoints.length currentIndex hidx
  constructor
  · intro ep hep
    rw [ringFrom] at hep
    have ho : (walkRing endpoints healthMap now currentIndex endpoints.length).1
        = some ep := hfind.trans hep
    rw [getCurrentHealthyEndpoint, ho]
  · intro hnone
    rw [ringFrom] at hnone
    have ho : (walkRing endpoints healthMap now currentIndex endpoints.length).1
        = none := hfind.trans hnone
    have hfi : (walkRing endpoints healthMap now currentIndex endpoints.length).2
        = currentIndex := by
      rw [walkRing_final endpoints healthMap now endpoints.length currentIndex hidx ho,
        Nat.add_mod_right, Nat.mod_eq_of_lt hidx]
    rw [getCurrentHealthyEndpoint, ho, hfi]
    have hinit : endpoints.getD currentIndex 0 ∈ endpoints := by
      rw [List.getD_eq_getElem endpoints 0 hidx]
      exact List.getElem_mem hidx
    constructor
    · rcases fallbackBest_mem endpoints healthMap (endpoints.getD currentIndex 0) with h | h
      · rw [h]; exact hinit
      · exact h
    · exact (fallbackBest_le endpoints healthMap (endpoints.getD currentIndex 0)).2

/-- Witness for C8: in a three-endpoint ring whose first endpoint is Down,
the walk starting at index 0 returns the second endpoint. -/
theorem getCurrentHealthyEndpoint_spec_witness :
    (0 < epsW.length) ∧ getCurrentHealthyEndpoint epsW hmW 100 0 = 20 :=
  ⟨by decide,
   (getCurrentHealthyEndpoint_spec epsW hmW 100 0 (by decide)).1 20 (by decide)⟩
